import Mathlib

set_option maxRecDepth 1000000
set_option maxHeartbeats 4000000

/-!
Verification development for the resilience simulation and evaluation engine
(src/src/attack/base.py, highest_degree.py, random_attack.py,
src/src/evaluation/unified_evaluator.py, src/src/env/metrics.py).

Graphs are embedded as an ordered list of node identifiers together with an
edge list, matching the networkx insertion-order semantics that the code
relies on (dict iteration order). Float arithmetic is embedded as exact
rational arithmetic. Python random.Random is embedded as a faithful
MT19937 model (seeding via init_by_array, tempering, getrandbits,
_randbelow, choice).
-/

/-- Embedding of a networkx undirected graph: `nodes` is the node list in
insertion order (dict order), `edges` the list of undirected edges. -/
structure Graph where
  nodes : List Nat
  edges : List (Nat × Nat)
deriving DecidableEq, Repr

/-- Adjacency test: an undirected edge joins `u` and `v` in either stored
orientation. -/
def adjb (g : Graph) (u v : Nat) : Bool :=
  g.edges.any (fun e => (e.1 == u && e.2 == v) || (e.1 == v && e.2 == u))

/-- Embedding of networkx `G.degree()[u]`: the number of neighbours of `u`. -/
def degreeOf (g : Graph) (u : Nat) : Nat :=
  (g.nodes.filter (fun v => adjb g u v)).length

/-- Embedding of networkx `G.remove_node(v)`: drop the node and every
incident edge; the relative order of the remaining nodes is preserved. -/
def remove_node (g : Graph) (v : Nat) : Graph :=
  ⟨g.nodes.erase v, g.edges.filter (fun e => e.1 ≠ v && e.2 ≠ v)⟩

/-- Embedding of networkx `G.add_edge(u, v)`: missing endpoints are appended
to the node list (in order `u` then `v`), and the edge is appended when it is
not already present. -/
def add_edge (g : Graph) (u v : Nat) : Graph :=
  let ns₁ := if u ∈ g.nodes then g.nodes else g.nodes ++ [u]
  let ns₂ := if v ∈ ns₁ then ns₁ else ns₁ ++ [v]
  if adjb g u v then ⟨ns₂, g.edges⟩ else ⟨ns₂, g.edges ++ [(u, v)]⟩

/-- One expansion step of the connected-component closure: add every node of
the graph adjacent to a member of the current set. -/
def compStep (g : Graph) (s : Finset ℕ) : Finset ℕ :=
  s ∪ s.biUnion (fun x => (g.nodes.filter (fun w => adjb g x w)).toFinset)

/-- The connected component of `u`, computed by iterating the closure step
`g.nodes.length` times (enough to reach every node at any distance). This
embeds the node set produced by `nx.connected_components` for the component
containing `u`. -/
def comp (g : Graph) (u : Nat) : Finset ℕ :=
  (compStep g)^[g.nodes.length] {u}

/-- Size of the largest connected component,
`max(len(cc) for cc in nx.connected_components(graph))`, expressed as the
maximum over nodes of the size of their component. -/
def maxCC (g : Graph) : Nat :=
  (g.nodes.map (fun u => (comp g u).card)).foldr max 0

/-- Embedding of `BaseAttack._compute_lcc_ratio(graph, initial_nodes)` from
src/src/attack/base.py (identical to
`UnifiedEvaluator._compute_lcc_ratio`): 0.0 for the empty graph, otherwise
the size of the largest connected component divided by `initial_nodes`. -/
def lccValue (g : Graph) (n0 : Nat) : ℚ :=
  if g.nodes.isEmpty then 0 else (maxCC g : ℚ) / (n0 : ℚ)

/-- Code-level connectivity predicate: the largest component covers every
node. -/
def connectedb (g : Graph) : Prop := maxCC g = g.nodes.length

/-- Trapezoidal integration of `y` over `x`, the mathematical content of
`np.trapezoid(y, x)` on equal-length inputs. -/
def trapezoid : List ℚ → List ℚ → ℚ
  | y1 :: y2 :: ys, x1 :: x2 :: xs =>
      (x2 - x1) * (y1 + y2) / 2 + trapezoid (y2 :: ys) (x2 :: xs)
  | _, _ => 0

/-- Embedding of Python `max(a, b)` on exact numbers. -/
def qmax (a b : ℚ) : ℚ := if a ≤ b then b else a

/-- Embedding of Python `min(a, b)` on exact numbers. -/
def qmin (a b : ℚ) : ℚ := if a ≤ b then a else b

/-- Embedding of `AttackResult.compute_r_res` from src/src/attack/base.py:
0.0 for fewer than two curve points, otherwise
`np.trapezoid(lcc_values, removal_fractions)`. -/
def compute_r_res_base (removal_fractions lcc_values : List ℚ) : ℚ :=
  if lcc_values.length < 2 then 0 else trapezoid lcc_values removal_fractions

/-- Embedding of `UnifiedEvaluator._compute_r_res` from
src/src/evaluation/unified_evaluator.py: 0.0 when either list has fewer than
two points, otherwise the trapezoid integral of the two lists truncated to
their common length. -/
def compute_r_res_unified (removal_fractions lcc_values : List ℚ) : ℚ :=
  if removal_fractions.length < 2 ∨ lcc_values.length < 2 then 0
  else
    let n := min removal_fractions.length lcc_values.length
    trapezoid (lcc_values.take n) (removal_fractions.take n)

/-- Embedding of `ResilienceMetrics.compute_r_res` from src/src/env/metrics.py
with the default `normalize=True`: 0.0 for fewer than two points, otherwise
`np.trapz(curve, dx=1/(n-1))` capped at 1.0. The uniform-spacing integral is
expressed as a trapezoid integral over the evenly spaced abscissae
`0, dx, 2*dx, ...`. -/
def compute_r_res_metrics (lcc_curve : List ℚ) : ℚ :=
  if lcc_curve.length < 2 then 0
  else
    let dq : ℚ := 1 / ((lcc_curve.length : ℚ) - 1)
    let xs := (List.range lcc_curve.length).map (fun i => (i : ℚ) * dq)
    qmin (trapezoid lcc_curve xs) 1

/-- Embedding of the scan loop of `AttackResult.find_collapse_point` from
src/src/attack/base.py, processing `(fraction, lcc)` pairs while remembering
the previous pair. At the first pair whose lcc lies strictly below the
threshold: with a previous pair of different lcc, linearly interpolate;
otherwise return the current fraction. -/
def fcpGo (thr : ℚ) (prev : Option (ℚ × ℚ)) : List (ℚ × ℚ) → Option ℚ
  | [] => none
  | (f, v) :: rest =>
      if v < thr then
        match prev with
        | some (fp, vp) =>
            if vp ≠ v then some (fp + (vp - thr) / (vp - v) * (f - fp))
            else some f
        | none => some f
      else fcpGo thr (some (f, v)) rest

/-- Embedding of `AttackResult.find_collapse_point(threshold)` from
src/src/attack/base.py on a fraction list and an lcc list of equal length. -/
def find_collapse_point (removal_fractions lcc_values : List ℚ) (thr : ℚ) :
    Option ℚ :=
  fcpGo thr none (removal_fractions.zip lcc_values)

/-- Embedding of the scan loop of `UnifiedEvaluator._find_collapse_point`
(src/src/evaluation/unified_evaluator.py), which starts at index 1 and keeps
the previous pair: at the first index whose lcc is below the threshold,
interpolate when the previous lcc is at or above the threshold and differs,
otherwise return the current fraction. -/
def fcpUGo (thr : ℚ) (prev : ℚ × ℚ) : List (ℚ × ℚ) → Option ℚ
  | [] => none
  | (f, v) :: rest =>
      if v < thr then
        if thr ≤ prev.2 ∧ prev.2 ≠ v then
          some (prev.1 + (prev.2 - thr) / (prev.2 - v) * (f - prev.1))
        else some f
      else fcpUGo thr (f, v) rest

/-- Embedding of `UnifiedEvaluator._find_collapse_point(lcc_values,
removal_fractions)` from src/src/evaluation/unified_evaluator.py. -/
def find_collapse_point_unified (lcc_values removal_fractions : List ℚ)
    (thr : ℚ) : Option ℚ :=
  match removal_fractions.zip lcc_values with
  | [] => none
  | p :: rest => fcpUGo thr p rest

/-- Embedding of the `AttackResult` dataclass of src/src/attack/base.py
(floats as rationals; the free-form `extra_metrics` dict is not carried). -/
structure AttackResult where
  algorithm_name : String
  dataset_name : String
  graph_name : String
  attack_sequence : List Nat
  removal_fractions : List ℚ
  lcc_values : List ℚ
  r_res : ℚ
  collapse_threshold : ℚ
  collapse_fraction : Option ℚ
  initial_nodes : Nat
  initial_edges : Nat
  budget : Nat
deriving DecidableEq, Repr

/-- The attack loop of `BaseAttack.attack` (src/src/attack/base.py lines
198-216), parameterised by the strategy state and its `select_node` method.
Each iteration stops on an empty graph or a `none` selection; otherwise it
removes the selected node and records the new removal fraction
(`len(attack_sequence) / initial_nodes`) and the new lcc value. `c` counts
the nodes removed so far; the returned lists are the entries appended after
the seed entries. -/
def attackSteps {σ : Type} (sel : σ → Graph → Option Nat × σ) (n0 : Nat) :
    Nat → σ → Graph → Nat → List Nat × List ℚ × List ℚ × σ
  | 0, s, _, _ => ([], [], [], s)
  | fuel + 1, s, g, c =>
      if g.nodes.isEmpty then ([], [], [], s)
      else
        match sel s g with
        | (none, s') => ([], [], [], s')
        | (some v, s') =>
            let g' := remove_node g v
            let r := attackSteps sel n0 fuel s' g' (c + 1)
            (v :: r.1, ((c : ℚ) + 1) / (n0 : ℚ) :: r.2.1,
             lccValue g' n0 :: r.2.2.1, r.2.2.2)

/-- Embedding of `BaseAttack.attack` from src/src/attack/base.py: copy the
graph, seed the curves with fraction 0.0 and the initial lcc value, run the
loop up to `budget` steps, then fill in `r_res` and `collapse_fraction` on
the result (the two-phase construction of the source). -/
def attack {σ : Type} (sel : σ → Graph → Option Nat × σ) (s0 : σ)
    (name : String) (g : Graph) (budget : Nat)
    (dataset_name : String := "unknown") (graph_name : String := "unknown")
    (collapse_threshold : ℚ := 1/5) : AttackResult :=
  let n0 := g.nodes.length
  let r := attackSteps sel n0 budget s0 g 0
  let fracs := (0 : ℚ) :: r.2.1
  let lccs := lccValue g n0 :: r.2.2.1
  { algorithm_name := name
    dataset_name := dataset_name
    graph_name := graph_name
    attack_sequence := r.1
    removal_fractions := fracs
    lcc_values := lccs
    r_res := compute_r_res_base fracs lccs
    collapse_threshold := collapse_threshold
    collapse_fraction := find_collapse_point fracs lccs collapse_threshold
    initial_nodes := n0
    initial_edges := g.edges.length
    budget := budget }

/-- First maximiser of `f` in Python iteration order: `max(keys, key=f)`
keeps the first element whose key no later element strictly exceeds. -/
def firstMaxBy (f : Nat → Nat) (x : Nat) : List Nat → Nat
  | [] => x
  | y :: ys => if f x < f y then firstMaxBy f y ys else firstMaxBy f x ys

/-- Embedding of `HighestDegreeAttack.select_node` with `recalculate=True`
from src/src/attack/highest_degree.py: `none` on the empty graph, otherwise
`max(degrees.keys(), key=lambda n: degrees[n])` over the node-insertion-order
degree dict, whose tie-break is the first (earliest-inserted) node among the
maximum-degree nodes. -/
def hda_select_node (g : Graph) : Option Nat :=
  match g.nodes with
  | [] => none
  | n :: ns => some (firstMaxBy (degreeOf g) n ns)

/-- Embedding of `HighestDegreeAttack(recalculate=True).attack`: the generic
attack loop driven by the stateless adaptive highest-degree selector. -/
def hda_attack (g : Graph) (budget : Nat)
    (collapse_threshold : ℚ := 1/5) : AttackResult :=
  attack (fun s g => (hda_select_node g, s)) () ("HighestDegreeAttack") g budget
    ("unknown") ("unknown") collapse_threshold

/-- The path graph on nodes 0,1,2,3,4 with edges inserted in the order
0-1, 1-2, 2-3, 3-4, as networkx builds it. -/
def pathGraph5 : Graph :=
  add_edge (add_edge (add_edge (add_edge ⟨[], []⟩ 0 1) 1 2) 2 3) 3 4

example : pathGraph5 = ⟨[0, 1, 2, 3, 4], [(0, 1), (1, 2), (2, 3), (3, 4)]⟩ := by
  with_unfolding_all decide

example : (hda_attack pathGraph5 2).attack_sequence = [1, 3] := by
  with_unfolding_all decide

example : (hda_attack pathGraph5 2).removal_fractions = [0, 1/5, 2/5] := by
  with_unfolding_all decide

example : (hda_attack pathGraph5 2).lcc_values = [1, 3/5, 1/5] := by
  with_unfolding_all decide

example : (hda_attack pathGraph5 2).r_res = 6/25 := by with_unfolding_all decide

/-! MT19937 model of Python random.Random. The 624-word generator state is
packed into a single natural number, 32 bits per word. All constants and
loops follow the CPython _randommodule.c implementation; an integer seed
below 2^32 (the only kind produced here) is fed to init_by_array as the
one-element key array. The model is validated below against output values
of CPython random.Random. -/

/-- Strict sequencing helper: semantically just `k`, but the boolean test
forces the numeric state of the iterated generator loops to a literal during
proof-by-evaluation, keeping reduction depth bounded. -/
def natSeq {α : Type} (n : Nat) (k : α) (d : α) : α := if n == n then k else d

theorem natSeq_eq {α : Type} (n : Nat) (k d : α) : natSeq n k d = k := by
  simp [natSeq]

/-- The 32-bit mask. -/
def m32 : Nat := 4294967295

/-- Word `i` of a packed MT19937 state. -/
def getW (mt i : Nat) : Nat := (mt >>> (32 * i)) &&& m32

/-- Replace word `i` of a packed MT19937 state. -/
def setW (mt i w : Nat) : Nat := mt ^^^ ((getW mt i ^^^ w) <<< (32 * i))

/-- The fill loop of `init_genrand`:
`mt[i] = (1812433253 * (mt[i-1] ^ (mt[i-1] >> 30)) + i) & 0xffffffff`. -/
def initGenrandAux (prev acc i : Nat) : Nat → Nat
  | 0 => acc
  | fuel + 1 =>
      let w := (1812433253 * (prev ^^^ (prev >>> 30)) + i) &&& m32
      let acc' := acc ||| (w <<< (32 * i))
      natSeq acc' (initGenrandAux w acc' (i + 1) fuel) 0

/-- `init_genrand(s)`: word 0 is the seed, the remaining 623 words follow the
recurrence. -/
def initGenrand (s : Nat) : Nat :=
  initGenrandAux (s &&& m32) (s &&& m32) 1 623

/-- First mixing loop of `init_by_array` for a one-element key: 624
iterations of
`mt[i] = (mt[i] ^ ((mt[i-1] ^ (mt[i-1] >> 30)) * 1664525)) + key[0]`
(the key index `j` stays 0), with the wrap rule `mt[0] = mt[623]; i = 1`
applied whenever `i` would reach 624. -/
def ibaLoop1 (key mt i : Nat) : Nat → Nat
  | 0 => mt
  | fuel + 1 =>
      let prev := getW mt (i - 1)
      let cur := getW mt i
      let w := ((cur ^^^ (((prev ^^^ (prev >>> 30)) * 1664525) &&& m32)) + key)
                  &&& m32
      let mt' := setW mt i w
      let mt'' := if i + 1 ≥ 624 then setW mt' 0 (getW mt' 623) else mt'
      let i' := if i + 1 ≥ 624 then 1 else i + 1
      natSeq mt'' (ibaLoop1 key mt'' i' fuel) 0

/-- Second mixing loop of `init_by_array`: 623 iterations of
`mt[i] = (mt[i] ^ ((mt[i-1] ^ (mt[i-1] >> 30)) * 1566083941)) - i`
(the subtraction wraps modulo 2^32), with the same wrap rule. -/
def ibaLoop2 (mt i : Nat) : Nat → Nat
  | 0 => mt
  | fuel + 1 =>
      let prev := getW mt (i - 1)
      let cur := getW mt i
      let w := ((cur ^^^ (((prev ^^^ (prev >>> 30)) * 1566083941) &&& m32))
                  + (4294967296 - i)) &&& m32
      let mt' := setW mt i w
      let mt'' := if i + 1 ≥ 624 then setW mt' 0 (getW mt' 623) else mt'
      let i' := if i + 1 ≥ 624 then 1 else i + 1
      natSeq mt'' (ibaLoop2 mt'' i' fuel) 0

/-- MT19937 generator state: the packed word array and the output index. -/
structure MTState where
  mt : Nat
  idx : Nat
deriving DecidableEq, Repr

/-- Seeding of `random.Random(seed)` for an integer `0 < seed < 2^32`:
`init_by_array` over the one-element key `[seed]`, starting from
`init_genrand(19650218)` and finishing with `mt[0] = 0x80000000`; the output
index starts exhausted so that the first draw triggers a twist. -/
def mtInit (seed : Nat) : MTState :=
  let a := initGenrand 19650218
  let b := ibaLoop1 (seed &&& m32) a 1 624
  let c := ibaLoop2 b 2 623
  ⟨setW c 0 2147483648, 624⟩

/-- One in-place step of the MT19937 twist at position `i`. -/
def twistStep (mt i : Nat) : Nat :=
  let y := (getW mt i &&& 2147483648) |||
      (getW mt ((i + 1) % 624) &&& 2147483647)
  let v := getW mt ((i + 397) % 624) ^^^ (y >>> 1) ^^^
      (if y &&& 1 == 1 then 2567483615 else 0)
  setW mt i v

/-- The full twist: 624 sequential in-place steps, exactly as the generation
loop of `genrand_uint32` updates the array. -/
def twistAux (mt i : Nat) : Nat → Nat
  | 0 => mt
  | fuel + 1 =>
      let mt' := twistStep mt i
      natSeq mt' (twistAux mt' (i + 1) fuel) 0

/-- Regenerate the whole state array. -/
def twist (mt : Nat) : Nat := twistAux mt 0 624

/-- `genrand_uint32`: twist when the index is exhausted, then output the next
word through the tempering transform. -/
def genrand (s : MTState) : Nat × MTState :=
  let s := if s.idx ≥ 624 then MTState.mk (twist s.mt) 0 else s
  let y0 := getW s.mt s.idx
  let y1 := y0 ^^^ (y0 >>> 11)
  let y2 := y1 ^^^ ((y1 <<< 7) &&& 2636928640)
  let y3 := y2 ^^^ ((y2 <<< 15) &&& 4022730752)
  let y4 := y3 ^^^ (y3 >>> 18)
  (y4, ⟨s.mt, s.idx + 1⟩)

/-- `getrandbits(k)` for `0 < k ≤ 32`: the top `k` bits of one output word. -/
def getrandbits (s : MTState) (k : Nat) : Nat × MTState :=
  let r := genrand s
  (r.1 >>> (32 - k), r.2)

/-- The retry loop of `Random._randbelow_with_getrandbits(n)`: draw
`getrandbits(n.bit_length())` until the value is below `n`. Python retries
without bound; the fuel covers every evaluation appearing here, and each
concrete evaluation below terminates well within it. -/
def randbelowAux (s : MTState) (n k : Nat) : Nat → Nat × MTState
  | 0 => (0, s)
  | fuel + 1 =>
      let r := getrandbits s k
      if r.1 < n then r else randbelowAux r.2 n k fuel

/-- `Random._randbelow(n)` for `n > 0`; `n.bit_length()` is
`Nat.log2 n + 1`. -/
def randbelow (s : MTState) (n : Nat) : Nat × MTState :=
  randbelowAux s n (Nat.log2 n + 1) 1000

/-- `random.Random.choice(seq)`: `seq[self._randbelow(len(seq))]`. -/
def mtChoice (s : MTState) (l : List Nat) : Nat × MTState :=
  let r := randbelow s l.length
  (l.getD r.1 0, r.2)

/-- Embedding of `RandomAttack.select_node` from
src/src/attack/random_attack.py: `none` on an empty graph, otherwise a
uniform choice from `list(graph.nodes())` through the owned generator. -/
def random_select_node (s : MTState) (g : Graph) : Option Nat × MTState :=
  if g.nodes.isEmpty then (none, s)
  else
    let r := mtChoice s g.nodes
    (some r.1, r.2)

/-- Embedding of `RandomAttack.attack` run with a generator freshly seeded to
`seed` (which is how `attack_multiple_runs` drives it: `set_seed` replaces
the generator before every run). -/
def random_attack (seed : Nat) (g : Graph) (budget : Nat)
    (graph_name : String := "unknown") (collapse_threshold : ℚ := 1/5) :
    AttackResult :=
  attack random_select_node (mtInit seed) ("RandomAttack") g budget ("unknown")
    graph_name collapse_threshold

/-! Validation of the MT19937 model against CPython: the first tempered
output words and the first value of `_randbelow(4)` for several seeds, as
produced by `random.Random(seed)`. -/

example : (genrand (mtInit 42)).1 = 2746317213 := by with_unfolding_all decide

example :
    (genrand (genrand (mtInit 42)).2).1 = 478163327 := by
  with_unfolding_all decide

example : (randbelow (mtInit 42) 4).1 = 0 := by with_unfolding_all decide

example : (randbelow (mtInit 45) 4).1 = 2 := by with_unfolding_all decide

example : (randbelow (mtInit 87) 4).1 = 1 := by with_unfolding_all decide

/-- The seed chosen at the start of run `k` by `attack_multiple_runs`
(src/src/attack/random_attack.py line 108):
`self.seed + run_idx if self.seed else run_idx`, where `self.seed` is falsy
both for `None` and for 0. -/
def nextSeed (st : Option Nat) (k : Nat) : Nat :=
  match st with
  | some s => if s ≠ 0 then s + k else k
  | none => k

/-- The successive seeds passed to `set_seed` by the run loop of
`attack_multiple_runs`, starting from stored seed state `st` at run index
`k`. `set_seed` overwrites `self.seed`, so each computed seed becomes the
stored state for the next iteration. -/
def seedsFrom (st : Option Nat) (k : Nat) : Nat → List Nat
  | 0 => []
  | n + 1 =>
      let s := nextSeed st k
      s :: seedsFrom (some s) (k + 1) n

/-- The seeds used by a whole `attack_multiple_runs` batch started with
stored seed `base`. -/
def seedsUsed (base : Option Nat) (num_runs : Nat) : List Nat :=
  seedsFrom base 0 num_runs

/-- The stored seed after a batch: the last seed set, or the unchanged base
when no run happened. -/
def seedAfter (base : Option Nat) (num_runs : Nat) : Option Nat :=
  match (seedsUsed base num_runs).getLast? with
  | some s => some s
  | none => base

/-- The run loop of `attack_multiple_runs`: run `k` executes
`RandomAttack.attack` with the generator freshly seeded by `set_seed` and
with the run graph name formed by appending `_run` and the run index to the
graph name. -/
def runResultsAux (g : Graph) (budget : Nat) (graph_name : String) (thr : ℚ)
    (k : Nat) : List Nat → List AttackResult
  | [] => []
  | s :: rest =>
      random_attack s g budget (graph_name ++ "_run" ++ toString k) thr ::
        runResultsAux g budget graph_name thr (k + 1) rest

/-- A padded per-run curve value: the curve entry at `i` when it exists,
otherwise the final value of that same curve (the padding rule
`curve + [curve[-1]] * (max_len - len(curve))`). -/
def padAt (c : List ℚ) (i : Nat) : ℚ :=
  if i < c.length then c.getD i 0 else c.getLastD 0

/-- A placeholder record; `attack_multiple_runs` with `num_runs = 0` raises
in Python (`max()` over an empty sequence), the embedding returns a
degenerate output built from this record instead. -/
def emptyAttackResult : AttackResult :=
  ⟨"", "", "", [], [], [], 0, 0, none, 0, 0, 0⟩

/-- Embedding of the dictionary returned by
`RandomAttack.attack_multiple_runs`. The two square-root-valued entries
(`std_r_res`, `std_lcc_curve`) are irrational and outside the rational
embedding; no claim mentions them. -/
structure MultiRunOutput where
  average_result : AttackResult
  all_results : List AttackResult
  avg_r_res : ℚ
  avg_collapse_fraction : Option ℚ
deriving DecidableEq, Repr

/-- The aggregation tail of `attack_multiple_runs`
(src/src/attack/random_attack.py lines 126-156): pad every lcc curve with
its own final value to the maximum observed length, average elementwise,
then reuse `all_results[0]` as the template object for the averaged result,
overwriting its name, graph name, lcc curve, mean `r_res` and mean collapse
fraction. The returned `all_results` therefore holds that same mutated
object at index 0. -/
def aggregate_runs (all0 : List AttackResult) (num_runs : Nat)
    (graph_name : String) : MultiRunOutput :=
  let curves := all0.map (fun r => r.lcc_values)
  let max_len := (curves.map List.length).foldr max 0
  let padded :=
    curves.map (fun c => c ++ List.replicate (max_len - c.length) (c.getLastD 0))
  let avg_curve := (List.range max_len).map
    (fun i => (padded.map (fun c => c.getD i 0)).sum / (all0.length : ℚ))
  let avg_r := (all0.map (fun r => r.r_res)).sum / (all0.length : ℚ)
  let cfs := all0.filterMap (fun r => r.collapse_fraction)
  let avg_cf := if cfs.isEmpty then none else some (cfs.sum / (cfs.length : ℚ))
  match all0 with
  | [] => ⟨emptyAttackResult, [], 0, none⟩
  | t :: rest =>
      let avg_result :=
        { t with
          algorithm_name := "RandomAttack_avg" ++ toString num_runs
          graph_name := graph_name
          lcc_values := avg_curve
          r_res := avg_r
          collapse_fraction := avg_cf }
      ⟨avg_result, avg_result :: rest, avg_r, avg_cf⟩

/-- Embedding of `RandomAttack.attack_multiple_runs` together with the
instance seed state it leaves behind (`self.seed` after the batch), which a
later batch on the same instance continues from. -/
def attack_multiple_runsS (base : Option Nat) (g : Graph)
    (budget num_runs : Nat) (graph_name : String) (thr : ℚ) :
    MultiRunOutput × Option Nat :=
  let seeds := seedsUsed base num_runs
  (aggregate_runs (runResultsAux g budget graph_name thr 0 seeds) num_runs
      graph_name,
   seedAfter base num_runs)

/-- Embedding of `RandomAttack.attack_multiple_runs` (the returned
dictionary only). -/
def attack_multiple_runs (base : Option Nat) (g : Graph)
    (budget num_runs : Nat) (graph_name : String) (thr : ℚ) :
    MultiRunOutput :=
  (attack_multiple_runsS base g budget num_runs graph_name thr).1

/-- The run loop of `attack_multiple_runs` with the per-run attack call
abstracted as a fallible action (run index and seed to either a raised
exception or a result). The loop body of the source has no handler around
`self.attack(...)`, so a raised exception aborts the whole loop; this is the
exception-flow embedding of those lines. -/
def runResultsE {ε : Type} (runAttack : Nat → Nat → Except ε AttackResult)
    (k : Nat) : List Nat → Except ε (List AttackResult)
  | [] => Except.ok []
  | s :: rest =>
      match runAttack k s with
      | Except.error e => Except.error e
      | Except.ok r =>
          match runResultsE runAttack (k + 1) rest with
          | Except.error e => Except.error e
          | Except.ok rs => Except.ok (r :: rs)

/-- `attack_multiple_runs` with fallible per-run attacks: the aggregation
tail runs only when every run returned normally; a raised exception
propagates out of the batch. -/
def attack_multiple_runs_exc {ε : Type}
    (runAttack : Nat → Nat → Except ε AttackResult) (base : Option Nat)
    (num_runs : Nat) (graph_name : String) : Except ε MultiRunOutput :=
  match runResultsE runAttack 0 (seedsUsed base num_runs) with
  | Except.error e => Except.error e
  | Except.ok rs => Except.ok (aggregate_runs rs num_runs graph_name)

/-- Embedding of `int(n * 0.3)`, the default attack budget of the unified
evaluator, as the exact floor of `3 n / 10`. (Python computes the product in
binary floating point, which agrees with the exact value for every node
count appearing in the concrete evaluations here.) -/
def int03 (n : Nat) : Nat := 3 * n / 10

/-- Embedding of the `ConstructResult` dataclass of
src/src/evaluation/unified_evaluator.py. -/
structure ConstructResult where
  method_name : String
  graph_name : String
  r_tar : ℚ
  r_ran : ℚ
  r_improvement : ℚ
  hda_lcc_curve : List ℚ
  random_lcc_curve : List ℚ
  hda_removal_fractions : List ℚ
  random_removal_fractions : List ℚ
  added_edges : List (Nat × Nat)
  r_original_tar : ℚ
  r_original_ran : ℚ
  initial_nodes : Nat
  initial_edges : Nat
  final_edges : Nat
  budget : Nat
deriving DecidableEq, Repr

/-- Embedding of `HighestDegreeAttack(recalculate=True).attack` with
explicit dataset and graph names, as the unified evaluator invokes it. -/
def hda_attack_named (g : Graph) (budget : Nat)
    (dataset_name graph_name : String) (collapse_threshold : ℚ) :
    AttackResult :=
  attack (fun s g => (hda_select_node g, s)) () ("HighestDegreeAttack") g
    budget dataset_name graph_name collapse_threshold

/-- Embedding of `UnifiedEvaluator.evaluate_construct`
(src/src/evaluation/unified_evaluator.py lines 337-435) with the default
evaluator configuration `collapse_threshold=0.2`, `random_runs=10`,
`random_seed=42`. The same freshly created `HighestDegreeAttack` and
`RandomAttack` objects serve both stress tests; the random stress test of
the original graph therefore continues from the seed state the
reconstructed-graph batch left behind. The two original-graph calls pass no
`collapse_threshold`, so they use the method default 0.2. A `None` or 0
`attack_budget` falls back to `int(0.3 * reconstructed node count)`. -/
def evaluate_construct (original_graph reconstructed_graph : Graph)
    (added_edges : List (Nat × Nat)) (attack_budget : Option Nat)
    (method_name : String := "LLM") (graph_name : String := "unknown") :
    ConstructResult :=
  let ab :=
    match attack_budget with
    | some b => if b ≠ 0 then b else int03 reconstructed_graph.nodes.length
    | none => int03 reconstructed_graph.nodes.length
  let hda_result := hda_attack_named reconstructed_graph ab ("construct_eval")
    graph_name (1/5)
  let r_tar := compute_r_res_unified hda_result.removal_fractions
    hda_result.lcc_values
  let batch1 := attack_multiple_runsS (some 42) reconstructed_graph ab 10
    graph_name (1/5)
  let avg_random := batch1.1.average_result
  let r_ran := compute_r_res_unified avg_random.removal_fractions
    avg_random.lcc_values
  let hda_original := hda_attack_named original_graph ab ("original")
    graph_name (1/5)
  let r_original_tar := compute_r_res_unified hda_original.removal_fractions
    hda_original.lcc_values
  let batch2 := attack_multiple_runsS batch1.2 original_graph ab 10
    graph_name (1/5)
  let r_original_ran := compute_r_res_unified
    batch2.1.average_result.removal_fractions
    batch2.1.average_result.lcc_values
  let r_improvement :=
    if 0 < r_original_tar then (r_tar - r_original_tar) / r_original_tar
    else 0
  { method_name := method_name
    graph_name := graph_name
    r_tar := r_tar
    r_ran := r_ran
    r_improvement := r_improvement
    hda_lcc_curve := hda_result.lcc_values
    random_lcc_curve := avg_random.lcc_values
    hda_removal_fractions := hda_result.removal_fractions
    random_removal_fractions := avg_random.removal_fractions
    added_edges := added_edges
    r_original_tar := r_original_tar
    r_original_ran := r_original_ran
    initial_nodes := original_graph.nodes.length
    initial_edges := original_graph.edges.length
    final_edges := reconstructed_graph.edges.length
    budget := added_edges.length }

/-- Embedding of `ResilienceMetrics.compute_lcc_ratio` from
src/src/env/metrics.py, which divides by the current node count. -/
def metrics_lcc (g : Graph) : ℚ :=
  if g.nodes.isEmpty then 0 else (maxCC g : ℚ) / (g.nodes.length : ℚ)

/-- Embedding of `ResilienceMetrics.compute_impact_score` from
src/src/env/metrics.py lines 209-254: 0.0 for a node not in the graph,
otherwise the drop of the lcc after removing the node (the after value is
divided by the node count of the unmodified graph), clamped into [0, 1] by
`max(0.0, min(1.0, impact))`. -/
def compute_impact_score (g : Graph) (target_node : Nat) : ℚ :=
  if target_node ∈ g.nodes then
    let lcc_before := metrics_lcc g
    let g_temp := remove_node g target_node
    let lcc_after :=
      if g_temp.nodes.isEmpty then 0
      else (maxCC g_temp : ℚ) / (g.nodes.length : ℚ)
    qmax 0 (qmin 1 (lcc_before - lcc_after))
  else 0

/-- A store of graph objects: the heap model used to state the frame
property of `BaseAttack.attack`. An index into the store is an object
reference. -/
abbrev Store : Type := List Graph

/-- The attack loop acting on the store: every mutation
(`g.remove_node(node)`) is applied to the graph at `work_ref`, the reference
to the clone allocated at the start of `attack`. -/
def attackStoreSteps {σ : Type} (sel : σ → Graph → Option Nat × σ)
    (n0 work_ref : Nat) :
    Nat → σ → Store → Nat → List Nat × List ℚ × List ℚ × σ × Store
  | 0, s, st, _ => ([], [], [], s, st)
  | fuel + 1, s, st, c =>
      let g := st.getD work_ref ⟨[], []⟩
      if g.nodes.isEmpty then ([], [], [], s, st)
      else
        match sel s g with
        | (none, s') => ([], [], [], s', st)
        | (some v, s') =>
            let st' := st.set work_ref (remove_node g v)
            let r := attackStoreSteps sel n0 work_ref fuel s' st' (c + 1)
            (v :: r.1, ((c : ℚ) + 1) / (n0 : ℚ) :: r.2.1,
             lccValue (remove_node g v) n0 :: r.2.2.1, r.2.2.2)

/-- Embedding of `BaseAttack.attack` over the store: `g = graph.copy()`
allocates a fresh clone of the caller's graph (at reference `st.length`) and
the whole loop mutates only that clone. Returns the result and the final
store. -/
def attack_store {σ : Type} (sel : σ → Graph → Option Nat × σ) (s0 : σ)
    (name : String) (st : Store) (ref : Nat) (budget : Nat)
    (collapse_threshold : ℚ) : AttackResult × Store :=
  let graph := st.getD ref ⟨[], []⟩
  let st1 := st ++ [graph]
  let work_ref := st.length
  let n0 := graph.nodes.length
  let r := attackStoreSteps sel n0 work_ref budget s0 st1 0
  let fracs := (0 : ℚ) :: r.2.1
  let lccs := lccValue graph n0 :: r.2.2.1
  ({ algorithm_name := name
     dataset_name := "unknown"
     graph_name := "unknown"
     attack_sequence := r.1
     removal_fractions := fracs
     lcc_values := lccs
     r_res := compute_r_res_base fracs lccs
     collapse_threshold := collapse_threshold
     collapse_fraction := find_collapse_point fracs lccs collapse_threshold
     initial_nodes := n0
     initial_edges := graph.edges.length
     budget := budget }, r.2.2.2.2)

/-- The path graph on nodes 0,1,2,3 with edges 0-1, 1-2, 2-3, inserted in
that order. -/
def pathGraph4 : Graph :=
  add_edge (add_edge (add_edge ⟨[], []⟩ 0 1) 1 2) 2 3

/-- A graph of two isolated nodes. -/
def twoIsolated : Graph := ⟨[0, 1], []⟩

/-! Helper lemmas about list maxima and the component closure, used for the
monotonicity invariants of the attack loop. -/

theorem le_foldr_max {l : List ℕ} {x : ℕ} (h : x ∈ l) : x ≤ l.foldr max 0 := by
  induction l with
  | nil => cases h
  | cons a t ih =>
      rcases List.mem_cons.mp h with rfl | h
      · exact Nat.le_max_left _ _
      · exact le_trans (ih h) (Nat.le_max_right _ _)

theorem foldr_max_le {l : List ℕ} {B : ℕ} (h : ∀ x ∈ l, x ≤ B) :
    l.foldr max 0 ≤ B := by
  induction l with
  | nil => exact Nat.zero_le _
  | cons a t ih =>
      exact max_le (h a (List.mem_cons_self a t))
        (ih (fun x hx => h x (List.mem_cons_of_mem a hx)))

theorem adjb_remove {g : Graph} {v x w : Nat}
    (h : adjb (remove_node g v) x w = true) : adjb g x w = true := by
  simp only [adjb, remove_node, List.any_eq_true] at h ⊢
  rcases h with ⟨e, he, hc⟩
  exact ⟨e, List.mem_of_mem_filter he, hc⟩

theorem subset_compStep (g : Graph) (s : Finset ℕ) : s ⊆ compStep g s :=
  Finset.subset_union_left

theorem compStep_subset {g' g : Graph} {s t : Finset ℕ}
    (hn : g'.nodes ⊆ g.nodes)
    (ha : ∀ x w, adjb g' x w = true → adjb g x w = true) (hst : s ⊆ t) :
    compStep g' s ⊆ compStep g t := by
  intro x hx
  rcases Finset.mem_union.mp hx with h | h
  · exact Finset.mem_union.mpr (Or.inl (hst h))
  · rcases Finset.mem_biUnion.mp h with ⟨a, ha', hx'⟩
    refine Finset.mem_union.mpr
      (Or.inr (Finset.mem_biUnion.mpr ⟨a, hst ha', ?_⟩))
    rcases List.mem_filter.mp (List.mem_toFinset.mp hx') with ⟨hw, hadj⟩
    exact List.mem_toFinset.mpr (List.mem_filter.mpr ⟨hn hw, ha a x hadj⟩)

theorem subset_iterate_compStep (g : Graph) :
    ∀ (k : Nat) (t : Finset ℕ), t ⊆ (compStep g)^[k] t := by
  intro k
  induction k with
  | zero => intro t; exact Finset.Subset.refl t
  | succ k ih =>
      intro t
      rw [Function.iterate_succ_apply]
      exact (subset_compStep g t).trans (ih (compStep g t))

theorem iterate_compStep_subset {g' g : Graph}
    (hn : g'.nodes ⊆ g.nodes)
    (ha : ∀ x w, adjb g' x w = true → adjb g x w = true) :
    ∀ (n m : Nat), m ≤ n → ∀ {s t : Finset ℕ}, s ⊆ t →
      (compStep g')^[m] s ⊆ (compStep g)^[n] t := by
  intro n
  induction n with
  | zero =>
      intro m hm s t hst
      have : m = 0 := Nat.le_zero.mp hm
      subst this
      exact hst
  | succ n ih =>
      intro m hm s t hst
      cases m with
      | zero => exact hst.trans (subset_iterate_compStep g (n + 1) t)
      | succ m =>
          rw [Function.iterate_succ_apply, Function.iterate_succ_apply]
          exact ih m (Nat.le_of_succ_le_succ hm) (compStep_subset hn ha hst)

theorem comp_card_remove_le (g : Graph) (v u : Nat) :
    (comp (remove_node g v) u).card ≤ (comp g u).card := by
  refine Finset.card_le_card
    (iterate_compStep_subset (fun a ha => List.mem_of_mem_erase ha)
      (fun x w h => adjb_remove h) g.nodes.length
      (remove_node g v).nodes.length ?_ (Finset.Subset.refl _))
  exact (List.erase_sublist v g.nodes).length_le

theorem maxCC_remove_le (g : Graph) (v : Nat) :
    maxCC (remove_node g v) ≤ maxCC g := by
  apply foldr_max_le
  intro x hx
  rcases List.mem_map.mp hx with ⟨u, hu, rfl⟩
  refine le_trans (comp_card_remove_le g v u) (le_foldr_max ?_)
  exact List.mem_map.mpr ⟨u, List.mem_of_mem_erase hu, rfl⟩

theorem lccValue_nonneg (g : Graph) (n0 : Nat) : 0 ≤ lccValue g n0 := by
  unfold lccValue
  split
  · exact le_refl 0
  · exact div_nonneg (Nat.cast_nonneg _) (Nat.cast_nonneg _)

theorem lccValue_remove_le (g : Graph) (v : Nat) (n0 : Nat) :
    lccValue (remove_node g v) n0 ≤ lccValue g n0 := by
  by_cases h' : (remove_node g v).nodes.isEmpty
  · rw [lccValue, if_pos h']
    exact lccValue_nonneg g n0
  · have hg : ¬ g.nodes.isEmpty := by
      intro hg
      apply h'
      rw [List.isEmpty_iff] at hg ⊢
      simp [remove_node, hg]
    rw [lccValue, if_neg h', lccValue, if_neg hg]
    rcases Nat.eq_zero_or_pos n0 with h0 | h0
    · subst h0
      simp
    · have hpos : (0 : ℚ) < (n0 : ℚ) := by exact_mod_cast h0
      have hle : ((maxCC (remove_node g v) : ℚ)) ≤ (maxCC g : ℚ) := by
        exact_mod_cast maxCC_remove_le g v
      exact div_le_div_of_nonneg_right hle hpos.le

theorem div_cast_le_succ (c : Nat) (n0 : Nat) :
    ((c : ℚ) + 1) / (n0 : ℚ) ≤ (((c + 1 : Nat) : ℚ) + 1) / (n0 : ℚ) := by
  rcases Nat.eq_zero_or_pos n0 with h0 | h0
  · subst h0; simp
  · have hpos : (0 : ℚ) < (n0 : ℚ) := by exact_mod_cast h0
    refine div_le_div_of_nonneg_right ?_ hpos.le
    push_cast
    linarith

theorem attackSteps_fracs_chain {σ : Type} (sel : σ → Graph → Option Nat × σ)
    (n0 : Nat) :
    ∀ (fuel : Nat) (s : σ) (g : Graph) (c : Nat) (q : ℚ),
      q ≤ ((c : ℚ) + 1) / (n0 : ℚ) →
      List.Chain' (· ≤ ·) (q :: (attackSteps sel n0 fuel s g c).2.1) := by
  intro fuel
  induction fuel with
  | zero => intro s g c q hq; simp [attackSteps]
  | succ fuel ih =>
      intro s g c q hq
      rw [attackSteps]
      by_cases hemp : g.nodes.isEmpty
      · simp [hemp]
      · rw [if_neg hemp]
        rcases hsel : sel s g with ⟨o, s'⟩
        cases o with
        | none => simp
        | some v =>
            simp only
            refine List.chain'_cons.mpr ⟨hq, ?_⟩
            exact ih s' (remove_node g v) (c + 1) _ (div_cast_le_succ c n0)

theorem attackSteps_lcc_chain {σ : Type} (sel : σ → Graph → Option Nat × σ)
    (n0 : Nat) :
    ∀ (fuel : Nat) (s : σ) (g : Graph) (c : Nat) (q : ℚ),
      lccValue g n0 ≤ q →
      List.Chain' (fun a b => b ≤ a)
        (q :: (attackSteps sel n0 fuel s g c).2.2.1) := by
  intro fuel
  induction fuel with
  | zero => intro s g c q _; simp [attackSteps]
  | succ fuel ih =>
      intro s g c q hq
      rw [attackSteps]
      by_cases hemp : g.nodes.isEmpty
      · simp [hemp]
      · rw [if_neg hemp]
        rcases hsel : sel s g with ⟨o, s'⟩
        cases o with
        | none => simp
        | some v =>
            simp only
            refine List.chain'_cons.mpr ⟨?_, ?_⟩
            · exact le_trans (lccValue_remove_le g v n0) hq
            · exact ih s' (remove_node g v) (c + 1) _ (le_refl _)

/-- C7 (amended): for every strategy (selection function and state), graph
and budget, the result of `BaseAttack.attack` has `removal_fractions`
starting at 0.0 and non-decreasing, and `lcc_values` non-increasing; the
first lcc value equals 1.0 whenever the initial graph is nonempty and
connected. (As stated the claim asserted `lcc_values[0] == 1.0`
unconditionally, which fails on disconnected input graphs: index 0 holds the
initial lcc value of the input graph.) -/
theorem C7_attack_invariants {σ : Type} (sel : σ → Graph → Option Nat × σ)
    (s0 : σ) (name ds gn : String) (g : Graph) (budget : Nat) (thr : ℚ) :
    (attack sel s0 name g budget ds gn thr).removal_fractions.getD 0 1 = 0 ∧
    List.Chain' (· ≤ ·)
      (attack sel s0 name g budget ds gn thr).removal_fractions ∧
    List.Chain' (fun a b => b ≤ a)
      (attack sel s0 name g budget ds gn thr).lcc_values ∧
    (g.nodes ≠ [] → connectedb g →
      (attack sel s0 name g budget ds gn thr).lcc_values.getD 0 0 = 1) := by
  refine ⟨rfl, ?_, ?_, ?_⟩
  · show List.Chain' (· ≤ ·)
      ((0 : ℚ) :: (attackSteps sel g.nodes.length budget s0 g 0).2.1)
    apply attackSteps_fracs_chain
    positivity
  · show List.Chain' (fun a b => b ≤ a)
      (lccValue g g.nodes.length ::
        (attackSteps sel g.nodes.length budget s0 g 0).2.2.1)
    exact attackSteps_lcc_chain sel g.nodes.length budget s0 g 0 _ (le_refl _)
  · intro hne hconn
    show (lccValue g g.nodes.length ::
      (attackSteps sel g.nodes.length budget s0 g 0).2.2.1).getD 0 0 = 1
    rw [List.getD_cons_zero, lccValue,
      if_neg (by simpa [List.isEmpty_iff] using hne)]
    rw [connectedb] at hconn
    rw [hconn]
    exact div_self (Nat.cast_ne_zero.mpr (by simpa using hne))

/-- C7 counterexample: on the graph with two isolated nodes (and budget 0),
`lcc_values[0]` is 0.5, not 1.0 as the claim asserts for every graph. -/
theorem C7_counterexample :
    (hda_attack twoIsolated 0).lcc_values.getD 0 0 = 1/2 ∧
    ¬ ((1 : ℚ)/2 = 1) := by
  with_unfolding_all decide

/-- C7 witness: the invariants instantiated on the adaptive highest-degree
attack over the 5-path with budget 2, whose input graph is nonempty and
connected. -/
theorem C7_witness :
    (hda_attack pathGraph5 2).removal_fractions.getD 0 1 = 0 ∧
    List.Chain' (· ≤ ·) (hda_attack pathGraph5 2).removal_fractions ∧
    List.Chain' (fun a b => b ≤ a) (hda_attack pathGraph5 2).lcc_values ∧
    (hda_attack pathGraph5 2).lcc_values.getD 0 0 = 1 := by
  have h := C7_attack_invariants (fun (s : Unit) g => (hda_select_node g, s))
    () ("HighestDegreeAttack") ("unknown") ("unknown") pathGraph5 2 (1/5)
  exact ⟨h.1, h.2.1, h.2.2.1,
    h.2.2.2 (by with_unfolding_all decide)
      (by unfold connectedb; with_unfolding_all decide)⟩

/-! Lemmas describing the collapse-point scan. -/

theorem fcpGo_skip (thr : ℚ) (prev : Option (ℚ × ℚ)) (a : ℚ × ℚ)
    (rest : List (ℚ × ℚ)) (h : ¬ a.2 < thr) :
    fcpGo thr prev (a :: rest) = fcpGo thr (some a) rest := by
  obtain ⟨f, v⟩ := a
  simp only [fcpGo]
  rw [if_neg (by simpa using h)]

theorem fcpGo_interp (thr : ℚ) :
    ∀ (i : Nat) (p : List (ℚ × ℚ)) (prev : Option (ℚ × ℚ)),
      i + 1 < p.length →
      (∀ j, j ≤ i → thr ≤ (p.getD j (0, 0)).2) →
      (p.getD (i + 1) (0, 0)).2 < thr →
      (p.getD i (0, 0)).2 ≠ (p.getD (i + 1) (0, 0)).2 →
      fcpGo thr prev p =
        some ((p.getD i (0, 0)).1 +
          ((p.getD i (0, 0)).2 - thr) /
            ((p.getD i (0, 0)).2 - (p.getD (i + 1) (0, 0)).2) *
          ((p.getD (i + 1) (0, 0)).1 - (p.getD i (0, 0)).1)) := by
  intro i
  induction i with
  | zero =>
      intro p prev hlen hup hlow hne
      match p, hlen with
      | a :: b :: rest, _ =>
        obtain ⟨f0, v0⟩ := a
        obtain ⟨f1, v1⟩ := b
        have h0 : thr ≤ v0 := by simpa using hup 0 (le_refl 0)
        have h1 : v1 < thr := by simpa using hlow
        have hne' : v0 ≠ v1 := by simpa using hne
        rw [fcpGo_skip thr prev (f0, v0) ((f1, v1) :: rest)
          (by simpa using not_lt.mpr h0)]
        rw [show fcpGo thr (some (f0, v0)) ((f1, v1) :: rest) =
            if v1 < thr then
              (if v0 ≠ v1 then
                some (f0 + (v0 - thr) / (v0 - v1) * (f1 - f0))
               else some f1)
            else fcpGo thr (some (f1, v1)) rest from rfl]
        rw [if_pos h1, if_pos hne']
        simp
  | succ i ih =>
      intro p prev hlen hup hlow hne
      match p, hlen with
      | a :: rest, hlen =>
        have h0 : thr ≤ a.2 := by simpa using hup 0 (Nat.zero_le _)
        rw [fcpGo_skip thr prev a rest (not_lt.mpr h0)]
        simp only [List.getD_cons_succ] at hlow hne ⊢
        exact ih rest (some a) (by simpa using hlen)
          (fun j hj => by
            have := hup (j + 1) (by omega)
            simpa using this)
          hlow hne

theorem fcpGo_below_none (thr : ℚ) :
    ∀ (p : List (ℚ × ℚ)) (prev : Option (ℚ × ℚ)),
      (∀ j, j < p.length → thr ≤ (p.getD j (0, 0)).2) →
      fcpGo thr prev p = none := by
  intro p
  induction p with
  | nil => intro prev _; rfl
  | cons a rest ih =>
      intro prev h
      have h0 : thr ≤ a.2 := by simpa using h 0 (by simp)
      rw [fcpGo_skip thr prev a rest (not_lt.mpr h0)]
      exact ih _ (fun j hj => by
        have := h (j + 1) (by simpa using Nat.succ_lt_succ hj)
        simpa using this)

theorem zip_getD :
    ∀ (l1 l2 : List ℚ) (j : Nat), j < l1.length → j < l2.length →
      (l1.zip l2).getD j (0, 0) = (l1.getD j 0, l2.getD j 0) := by
  intro l1
  induction l1 with
  | nil => intro l2 j h1 _; exact absurd h1 (Nat.not_lt_zero j)
  | cons a t ih =>
      intro l2 j h1 h2
      cases l2 with
      | nil => exact absurd h2 (Nat.not_lt_zero j)
      | cons b t2 =>
          cases j with
          | zero => simp [List.zip_cons_cons]
          | succ j =>
              simp only [List.zip_cons_cons, List.getD_cons_succ]
              exact ih t2 j (by simpa using h1) (by simpa using h2)

/-- C3: collapse-point detection. The scan of
`AttackResult.find_collapse_point` finds the first index whose lcc value
lies strictly below the threshold; if that index is positive and the
previous lcc value differs, it returns the linear interpolation
`fractions[i-1] + t * (fractions[i] - fractions[i-1])` with
`t = (values[i-1] - threshold) / (values[i-1] - values[i])`; it returns
`none` when no value is below the threshold. On values [1.0, 0.5, 0.1] over
fractions [0, 0.5, 1.0] with threshold 0.2, both the base implementation and
the unified-evaluator implementation return 0.875. -/
theorem C3_collapse_point :
    (∀ (fr v : List ℚ) (thr : ℚ) (i : Nat), fr.length = v.length →
      i + 1 < v.length → (∀ j, j ≤ i → thr ≤ v.getD j 0) →
      v.getD (i + 1) 0 < thr → v.getD i 0 ≠ v.getD (i + 1) 0 →
      find_collapse_point fr v thr =
        some (fr.getD i 0 +
          (v.getD i 0 - thr) / (v.getD i 0 - v.getD (i + 1) 0) *
          (fr.getD (i + 1) 0 - fr.getD i 0))) ∧
    (∀ (fr v : List ℚ) (thr : ℚ), fr.length = v.length →
      (∀ j, j < v.length → thr ≤ v.getD j 0) →
      find_collapse_point fr v thr = none) ∧
    find_collapse_point [0, 1/2, 1] [1, 1/2, 1/10] (1/5) = some (7/8) ∧
    find_collapse_point_unified [1, 1/2, 1/10] [0, 1/2, 1] (1/5) =
      some (7/8) := by
  refine ⟨?_, ?_, ?_, ?_⟩
  · intro fr v thr i hlen hi hup hlow hne
    have hz : ∀ j, j < v.length →
        (fr.zip v).getD j (0, 0) = (fr.getD j 0, v.getD j 0) :=
      fun j hj => zip_getD fr v j (by omega) hj
    have h1 : i + 1 < (fr.zip v).length := by
      rw [List.length_zip, hlen, Nat.min_self]; exact hi
    rw [find_collapse_point,
      fcpGo_interp thr i (fr.zip v) none h1
        (fun j hj => by rw [hz j (by omega)]; exact hup j hj)
        (by rw [hz (i + 1) hi]; exact hlow)
        (by rw [hz i (by omega), hz (i + 1) hi]; exact hne)]
    rw [hz i (by omega), hz (i + 1) hi]
  · intro fr v thr hlen hup
    have hz : ∀ j, j < v.length →
        (fr.zip v).getD j (0, 0) = (fr.getD j 0, v.getD j 0) :=
      fun j hj => zip_getD fr v j (by omega) hj
    rw [find_collapse_point]
    apply fcpGo_below_none
    intro j hj
    have hj' : j < v.length := by
      rw [List.length_zip, hlen, Nat.min_self] at hj; exact hj
    rw [hz j hj']
    exact hup j hj'
  · with_unfolding_all decide
  · with_unfolding_all decide

/-- C3 witness: the interpolation branch applied at the concrete instance of
the claim (first below-threshold index 2, interpolating between indices 1
and 2 to give 7/8), and the none branch on a curve that never crosses. -/
theorem C3_witness :
    find_collapse_point [0, 1/2, 1] [1, 1/2, 1/10] (1/5) =
      some ((1 : ℚ)/2 + ((1 : ℚ)/2 - 1/5) / ((1 : ℚ)/2 - 1/10) * (1 - 1/2)) ∧
    find_collapse_point [0, 1/2] [1, 1/2] (1/5) = none := by
  constructor
  · have h := C3_collapse_point.1 [0, 1/2, 1] [1, 1/2, 1/10] (1/5) 1 rfl
      (by norm_num)
      (fun j hj => by interval_cases j <;> with_unfolding_all decide)
      (by with_unfolding_all decide) (by with_unfolding_all decide)
    exact h.trans (by with_unfolding_all decide)
  · exact C3_collapse_point.2.1 [0, 1/2] [1, 1/2] (1/5) rfl
      (fun j hj => by
        have hj2 : j < 2 := by simpa using hj
        interval_cases j <;> with_unfolding_all decide)

/-- The k-th triangular number. -/
def tri : Nat → Nat
  | 0 => 0
  | n + 1 => tri n + n + 1

theorem seedsFrom_length : ∀ (n : Nat) (st : Option Nat) (k : Nat),
    (seedsFrom st k n).length = n := by
  intro n
  induction n with
  | zero => intro st k; rfl
  | succ n ih => intro st k; simp [seedsFrom, ih]

theorem seedsFrom_getD :
    ∀ (n : Nat) (s k j : Nat), 1 ≤ s → j < n →
      (seedsFrom (some s) k n).getD j 0 = s + (j + 1) * k + tri j := by
  intro n
  induction n with
  | zero => intro s k j _ hj; exact absurd hj (Nat.not_lt_zero j)
  | succ n ih =>
      intro s k j hs hj
      have hs0 : s ≠ 0 := by omega
      have hstep : seedsFrom (some s) k (n + 1) =
          (s + k) :: seedsFrom (some (s + k)) (k + 1) n := by
        simp [seedsFrom, nextSeed, hs0]
      rw [hstep]
      cases j with
      | zero => simp [tri]
      | succ j =>
          rw [List.getD_cons_succ]
          rw [ih (s + k) (k + 1) j (by omega) (by omega)]
          simp only [tri]
          ring

/-- C4 (amended): in `attack_multiple_runs` with a positive base seed `s`,
run `k` is executed with the generator seeded to `s` plus the k-th
triangular number (`s + k*(k+1)/2`), not `s + k`: `set_seed` overwrites the
stored `self.seed`, so each run adds its index to the previous seed rather
than to the base. -/
theorem C4_seed_schedule :
    (∀ (s n k : Nat), 1 ≤ s → k < n →
      (seedsUsed (some s) n).getD k 0 = s + tri k) ∧
    (∀ k : Nat, 2 * tri k = k * (k + 1)) := by
  constructor
  · intro s n k hs hk
    have h := seedsFrom_getD n s 0 k hs hk
    simpa using h
  · intro k
    induction k with
    | zero => rfl
    | succ k ih =>
        simp only [tri]
        have h2 : 2 * (tri k + k + 1) = 2 * tri k + 2 * k + 2 := by ring
        rw [h2, ih]
        ring

/-- C4 counterexample: with base seed 1 and three runs, run 2 is seeded with
4, not with `base_seed + 2 = 3` as the claim asserts. -/
theorem C4_counterexample :
    (seedsUsed (some 1) 3).getD 2 0 = 4 ∧ (4 : Nat) ≠ 1 + 2 := by
  with_unfolding_all decide

/-- C4 witness: the default evaluator configuration (base seed 42, ten
runs): run 9 is seeded with 42 + tri 9 = 87. -/
theorem C4_witness : (seedsUsed (some 42) 10).getD 9 0 = 87 := by
  have h := C4_seed_schedule.1 42 10 9 (by omega) (by omega)
  exact h.trans (by with_unfolding_all decide)

/-! Lemmas for the exception-flow embedding of the multi-run batch. -/

theorem runResultsE_all_ok (ε : Type) (g : Graph) (b : Nat) (gn : String)
    (thr : ℚ) :
    ∀ (seeds : List Nat) (k : Nat),
      runResultsE
        (fun i s => (Except.ok
          (random_attack s g b (gn ++ "_run" ++ toString i) thr) :
            Except ε AttackResult)) k seeds =
      Except.ok (runResultsAux g b gn thr k seeds) := by
  intro seeds
  induction seeds with
  | nil => intro k; rfl
  | cons s rest ih =>
      intro k
      simp only [runResultsE, runResultsAux, ih (k + 1)]

theorem runResultsE_error {ε : Type} (f : Nat → Nat → Except ε AttackResult)
    (e : ε) :
    ∀ (seeds : List Nat) (k j : Nat), j < seeds.length →
      (∀ i, i < j → ∃ r, f (k + i) (seeds.getD i 0) = Except.ok r) →
      f (k + j) (seeds.getD j 0) = Except.error e →
      runResultsE f k seeds = Except.error e := by
  intro seeds
  induction seeds with
  | nil => intro k j hj _ _; exact absurd hj (Nat.not_lt_zero j)
  | cons s rest ih =>
      intro k j hj hok herr
      cases j with
      | zero =>
          have : f k s = Except.error e := by simpa using herr
          simp only [runResultsE, this]
      | succ j =>
          obtain ⟨r, hr⟩ := hok 0 (Nat.succ_pos j)
          have hr' : f k s = Except.ok r := by simpa using hr
          have hrec : runResultsE f (k + 1) rest = Except.error e := by
            apply ih (k + 1) j (by simpa using hj)
            · intro i hi
              obtain ⟨r', hr''⟩ := hok (i + 1) (by omega)
              exact ⟨r', by
                have : k + (i + 1) = k + 1 + i := by omega
                rw [this] at hr''
                simpa using hr''⟩
            · have : k + (j + 1) = k + 1 + j := by omega
              rw [this] at herr
              simpa using herr
          simp only [runResultsE, hr', hrec]

/-- C6 (amended): a run that raises inside `attack_multiple_runs` is not
skipped or counted — the exception propagates out of the batch and no
statistics (and no failure count) are returned. The loop body has no
handler: with the per-run attack call abstracted as a fallible action, the
batch returns the raised error as soon as any run fails, and it returns the
aggregated dictionary of `attack_multiple_runs` exactly when every run
returns normally. -/
theorem C6_exception_propagation :
    (∀ (ε : Type) (f : Nat → Nat → Except ε AttackResult) (base : Option Nat)
      (n : Nat) (gn : String) (j : Nat) (e : ε), j < n →
      (∀ i, i < j → ∃ r, f i ((seedsUsed base n).getD i 0) = Except.ok r) →
      f j ((seedsUsed base n).getD j 0) = Except.error e →
      attack_multiple_runs_exc f base n gn = Except.error e) ∧
    (∀ (ε : Type) (base : Option Nat) (g : Graph) (b n : Nat) (gn : String)
      (thr : ℚ),
      attack_multiple_runs_exc
        (fun i s => (Except.ok
          (random_attack s g b (gn ++ "_run" ++ toString i) thr) :
            Except ε AttackResult)) base n gn =
      Except.ok (attack_multiple_runs base g b n gn thr)) := by
  constructor
  · intro ε f base n gn j e hj hok herr
    have hlen : j < (seedsUsed base n).length := by
      rw [seedsUsed, seedsFrom_length]; exact hj
    have := runResultsE_error f e (seedsUsed base n) 0 j hlen
      (fun i hi => by simpa using hok i hi) (by simpa using herr)
    rw [attack_multiple_runs_exc, this]
  · intro ε base g b n gn thr
    rw [attack_multiple_runs_exc, runResultsE_all_ok]
    rfl

/-- C6 counterexample: a batch of three runs whose second run raises returns
the raised error — the remaining run does not execute into a partial result
and no failure count is surfaced, contradicting the claim. -/
theorem C6_counterexample :
    attack_multiple_runs_exc
      (fun i _ => if i == 1 then Except.error 1 else Except.ok
        emptyAttackResult) (some 42) 3 ("g") = Except.error 1 := by
  with_unfolding_all rfl

/-- C6 witness: the propagation theorem applied to a concrete failing run
(run 0 raises, two runs requested), and the all-ok case on the 4-path. -/
theorem C6_witness :
    attack_multiple_runs_exc
      (fun i _ => if i == 0 then Except.error 5 else Except.ok
        emptyAttackResult) (some 7) 2 ("h") = Except.error 5 ∧
    attack_multiple_runs_exc
      (fun i s => (Except.ok
        (random_attack s pathGraph4 1 ("g" ++ "_run" ++ toString i) (1/5)) :
          Except Nat AttackResult))
      (some 42) 2 ("g") =
      Except.ok (attack_multiple_runs (some 42) pathGraph4 1 2 ("g") (1/5)) := by
  constructor
  · exact C6_exception_propagation.1 Nat _ (some 7) 2 ("h") 0 5 (by omega)
      (fun i hi => absurd hi (Nat.not_lt_zero i)) rfl
  · exact C6_exception_propagation.2 Nat (some 42) pathGraph4 1 2 ("g") (1/5)

/-! Store lemmas for the frame property of the attack loop. -/

theorem get?_set_ne {α : Type} :
    ∀ (l : List α) (i j : Nat) (a : α), i ≠ j →
      (l.set i a).get? j = l.get? j := by
  intro l
  induction l with
  | nil => intro i j a _; rfl
  | cons x t ih =>
      intro i j a hij
      cases i with
      | zero =>
          cases j with
          | zero => exact absurd rfl hij
          | succ j => rfl
      | succ i =>
          cases j with
          | zero => rfl
          | succ j => exact ih i j a (by omega)

theorem getD_set_self {α : Type} (d : α) :
    ∀ (l : List α) (i : Nat) (a : α), i < l.length →
      (l.set i a).getD i d = a := by
  intro l
  induction l with
  | nil => intro i a h; exact absurd h (Nat.not_lt_zero i)
  | cons x t ih =>
      intro i a h
      cases i with
      | zero => rfl
      | succ i => simpa using ih i a (by simpa using h)

theorem get?_append_lt {α : Type} :
    ∀ (l l2 : List α) (i : Nat), i < l.length →
      (l ++ l2).get? i = l.get? i := by
  intro l
  induction l with
  | nil => intro l2 i h; exact absurd h (Nat.not_lt_zero i)
  | cons x t ih =>
      intro l2 i h
      cases i with
      | zero => rfl
      | succ i => exact ih l2 i (by simpa using h)

theorem getD_append_self {α : Type} (d : α) :
    ∀ (l : List α) (a : α), (l ++ [a]).getD l.length d = a := by
  intro l
  induction l with
  | nil => intro a; rfl
  | cons x t ih => intro a; exact ih a

theorem length_set_self {α : Type} (l : List α) (i : Nat) (a : α) :
    (l.set i a).length = l.length := List.length_set l i a

theorem attackStoreSteps_frame {σ : Type} (sel : σ → Graph → Option Nat × σ)
    (n0 work_ref : Nat) :
    ∀ (fuel : Nat) (s : σ) (st : Store) (c i : Nat), i ≠ work_ref →
      ((attackStoreSteps sel n0 work_ref fuel s st c).2.2.2.2).get? i =
        st.get? i := by
  intro fuel
  induction fuel with
  | zero => intro s st c i _; rfl
  | succ fuel ih =>
      intro s st c i hi
      simp only [attackStoreSteps]
      split
      · rfl
      · split
        · rfl
        · next v s' heq =>
            rw [ih s' _ (c + 1) i hi]
            exact get?_set_ne st work_ref i _ (by omega)

theorem attackStoreSteps_eq_attackSteps {σ : Type}
    (sel : σ → Graph → Option Nat × σ) (n0 work_ref : Nat) :
    ∀ (fuel : Nat) (s : σ) (st : Store) (c : Nat), work_ref < st.length →
      (attackStoreSteps sel n0 work_ref fuel s st c).1 =
        (attackSteps sel n0 fuel s (st.getD work_ref ⟨[], []⟩) c).1 ∧
      (attackStoreSteps sel n0 work_ref fuel s st c).2.1 =
        (attackSteps sel n0 fuel s (st.getD work_ref ⟨[], []⟩) c).2.1 ∧
      (attackStoreSteps sel n0 work_ref fuel s st c).2.2.1 =
        (attackSteps sel n0 fuel s (st.getD work_ref ⟨[], []⟩) c).2.2.1 := by
  intro fuel
  induction fuel with
  | zero => intro s st c _; exact ⟨rfl, rfl, rfl⟩
  | succ fuel ih =>
      intro s st c hlt
      simp only [attackStoreSteps, attackSteps]
      split
      · next hemp => exact ⟨by simp [hemp], by simp [hemp], by simp [hemp]⟩
      · next hemp =>
          split
          · exact ⟨rfl, rfl, rfl⟩
          · next v s' heq =>
              have hset := getD_set_self (⟨[], []⟩ : Graph) st work_ref
                (remove_node (st.getD work_ref ⟨[], []⟩) v) hlt
              have hlen : work_ref < (st.set work_ref
                  (remove_node (st.getD work_ref ⟨[], []⟩) v)).length := by
                rw [length_set_self]; exact hlt
              have h := ih s' _ (c + 1) hlen
              rw [hset] at h
              exact ⟨by dsimp only; rw [h.1], by dsimp only; rw [h.2.1],
                by dsimp only; rw [h.2.2]⟩

/-- C8: frame property of `BaseAttack.attack`. In the store model, `attack`
clones the graph at the caller's reference and mutates only the clone: every
store entry present before the call — in particular the caller's graph, its
node list and its edge list — is unchanged in the returned store, and the
result computed through the store equals the pure attack on the value of the
caller's graph. -/
theorem C8_attack_no_mutation {σ : Type} (sel : σ → Graph → Option Nat × σ)
    (s0 : σ) (name : String) (st : Store) (ref : Nat) (budget : Nat)
    (thr : ℚ) :
    (∀ i, i < st.length →
      ((attack_store sel s0 name st ref budget thr).2).get? i = st.get? i) ∧
    (attack_store sel s0 name st ref budget thr).1 =
      attack sel s0 name (st.getD ref ⟨[], []⟩) budget ("unknown") ("unknown")
        thr := by
  constructor
  · intro i hi
    show ((attackStoreSteps sel _ st.length budget s0
        (st ++ [st.getD ref ⟨[], []⟩]) 0).2.2.2.2).get? i = st.get? i
    rw [attackStoreSteps_frame sel _ st.length budget s0 _ 0 i (by omega)]
    exact get?_append_lt st _ i hi
  · have hlt : st.length < (st ++ [st.getD ref ⟨[], []⟩]).length := by
      simp
    have h := attackStoreSteps_eq_attackSteps sel
      (st.getD ref ⟨[], []⟩).nodes.length st.length budget s0
      (st ++ [st.getD ref ⟨[], []⟩]) 0 hlt
    have hgd : (st ++ [st.getD ref ⟨[], []⟩]).getD st.length ⟨[], []⟩ =
        st.getD ref ⟨[], []⟩ := getD_append_self ⟨[], []⟩ st _
    rw [hgd] at h
    show AttackResult.mk _ _ _ _ _ _ _ _ _ _ _ _ = AttackResult.mk _ _ _ _ _ _ _ _ _ _ _ _
    rw [h.1, h.2.1, h.2.2]

/-- C8 witness: the store holding only the 5-path; after the adaptive
highest-degree attack with budget 2 runs through the store, entry 0 still
holds the original 5-path, and the computed result is the pure one. -/
theorem C8_witness :
    ((attack_store (fun (s : Unit) g => (hda_select_node g, s)) ()
        ("HighestDegreeAttack") [pathGraph5] 0 2 (1/5)).2).get? 0 =
      some pathGraph5 ∧
    (attack_store (fun (s : Unit) g => (hda_select_node g, s)) ()
        ("HighestDegreeAttack") [pathGraph5] 0 2 (1/5)).1 = hda_attack pathGraph5 2 := by
  have h := C8_attack_no_mutation (fun (s : Unit) g => (hda_select_node g, s))
    () ("HighestDegreeAttack") [pathGraph5] 0 2 (1/5)
  exact ⟨h.1 0 (by simp), h.2⟩

/-- C10: `ResilienceMetrics.compute_impact_score` returns exactly 0.0 for a
node that is not in the graph, and its return value always lies in [0, 1]
because of the final clamp. -/
theorem C10_impact_score (g : Graph) (v : Nat) :
    (v ∉ g.nodes → compute_impact_score g v = 0) ∧
    0 ≤ compute_impact_score g v ∧ compute_impact_score g v ≤ 1 := by
  unfold compute_impact_score
  by_cases hv : v ∈ g.nodes
  · rw [if_pos hv]
    refine ⟨fun hcon => absurd hv hcon, ?_, ?_⟩
    · unfold qmax qmin
      dsimp only
      split_ifs <;> linarith
    · unfold qmax qmin
      dsimp only
      split_ifs <;> linarith
  · rw [if_neg hv]
    exact ⟨fun _ => rfl, le_refl 0, by norm_num⟩

/-- C10 witness: node 9 is not in the 5-path, so its impact score is 0;
the impact score of node 1 lies in [0, 1]. -/
theorem C10_witness :
    compute_impact_score pathGraph5 9 = 0 ∧
    0 ≤ compute_impact_score pathGraph5 1 ∧
    compute_impact_score pathGraph5 1 ≤ 1 := by
  refine ⟨(C10_impact_score pathGraph5 9).1 (by with_unfolding_all decide),
    (C10_impact_score pathGraph5 1).2.1, (C10_impact_score pathGraph5 1).2.2⟩

/-! Lemmas about curve padding and the multi-run aggregation. -/

theorem getD_append_lt {α : Type} (d : α) :
    ∀ (l l2 : List α) (i : Nat), i < l.length → (l ++ l2).getD i d = l.getD i d := by
  intro l
  induction l with
  | nil => intro l2 i h; exact absurd h (Nat.not_lt_zero i)
  | cons x t ih =>
      intro l2 i h
      cases i with
      | zero => rfl
      | succ i => exact ih l2 i (by simpa using h)

theorem getD_append_ge {α : Type} (d : α) :
    ∀ (l l2 : List α) (i : Nat), l.length ≤ i →
      (l ++ l2).getD i d = l2.getD (i - l.length) d := by
  intro l
  induction l with
  | nil => intro l2 i _; rfl
  | cons x t ih =>
      intro l2 i h
      cases i with
      | zero => exact absurd h (by simp)
      | succ i => simpa using ih l2 i (by simpa using h)

theorem getD_replicate {α : Type} (d : α) :
    ∀ (n : Nat) (a : α) (i : Nat), i < n → (List.replicate n a).getD i d = a := by
  intro n
  induction n with
  | zero => intro a i h; exact absurd h (Nat.not_lt_zero i)
  | succ n ih =>
      intro a i h
      cases i with
      | zero => rfl
      | succ i => simpa [List.replicate] using ih a i (by omega)

theorem padded_getD (c : List ℚ) (m i : Nat) (hi : i < m)
    (hlen : c.length ≤ m) :
    (c ++ List.replicate (m - c.length) (c.getLastD 0)).getD i 0 =
      padAt c i := by
  by_cases hc : i < c.length
  · rw [getD_append_lt 0 c _ i hc, padAt, if_pos hc]
  · have h1 : c.length ≤ i := by omega
    rw [getD_append_ge 0 c _ i h1, padAt, if_neg hc]
    exact getD_replicate 0 (m - c.length) _ (i - c.length) (by omega)

theorem runResultsAux_length (g : Graph) (b : Nat) (gn : String) (thr : ℚ) :
    ∀ (seeds : List Nat) (k : Nat),
      (runResultsAux g b gn thr k seeds).length = seeds.length := by
  intro seeds
  induction seeds with
  | nil => intro k; rfl
  | cons s rest ih => intro k; simp [runResultsAux, ih (k + 1)]

theorem runResultsAux_getD (g : Graph) (b : Nat) (gn : String) (thr : ℚ) :
    ∀ (seeds : List Nat) (k j : Nat), j < seeds.length →
      (runResultsAux g b gn thr k seeds).getD j emptyAttackResult =
        random_attack (seeds.getD j 0) g b
          (gn ++ "_run" ++ toString (k + j)) thr := by
  intro seeds
  induction seeds with
  | nil => intro k j h; exact absurd h (Nat.not_lt_zero j)
  | cons s rest ih =>
      intro k j hj
      cases j with
      | zero => simp [runResultsAux]
      | succ j =>
          simp only [runResultsAux, List.getD_cons_succ]
          rw [ih (k + 1) j (by simpa using hj)]
          have : k + 1 + j = k + (j + 1) := by omega
          rw [this]

theorem aggregate_runs_all_results (t : AttackResult)
    (rest : List AttackResult) (n : Nat) (gn : String) :
    (aggregate_runs (t :: rest) n gn).all_results =
      (aggregate_runs (t :: rest) n gn).average_result :: rest := rfl

theorem aggregate_runs_avg_lcc (t : AttackResult) (rest : List AttackResult)
    (n : Nat) (gn : String) :
    (aggregate_runs (t :: rest) n gn).average_result.lcc_values =
      (List.range
        ((((t :: rest).map (fun r => r.lcc_values)).map List.length).foldr
          max 0)).map
        (fun i => (((t :: rest).map (fun r => r.lcc_values)).map
          (fun c => padAt c i)).sum / (((t :: rest).length : Nat) : ℚ)) := by
  simp only [aggregate_runs]
  apply List.map_congr_left
  intro i hi
  congr 1
  rw [List.map_map]
  congr 1
  apply List.map_congr_left
  intro c hc
  simp only [Function.comp]
  exact padded_getD c _ i (List.mem_range.mp hi)
    (le_foldr_max (List.mem_map.mpr ⟨c, hc, rfl⟩))

/-- C9 (amended): in the dictionary returned by
`RandomAttack.attack_multiple_runs`, the entries of `all_results` at indices
1 and above are exactly the per-run results as their runs computed them,
and the averaged result carries the elementwise mean of the per-run lcc
curves right-padded with their own final value to the maximum observed
length — but `all_results[0]` is the very object reused as the template for
the averaged result, so it carries the averaged curve and mean `r_res`, not
the values its own run computed. -/
theorem C9_multirun_aggregation :
    (∀ (base : Option Nat) (g : Graph) (b n : Nat) (gn : String) (thr : ℚ)
      (k : Nat), 1 ≤ k → k < n →
      (attack_multiple_runs base g b n gn thr).all_results.getD k
          emptyAttackResult =
        random_attack ((seedsUsed base n).getD k 0) g b
          (gn ++ "_run" ++ toString k) thr) ∧
    (∀ (base : Option Nat) (g : Graph) (b n : Nat) (gn : String) (thr : ℚ),
      1 ≤ n →
      (attack_multiple_runs base g b n gn thr).all_results.getD 0
          emptyAttackResult =
        (attack_multiple_runs base g b n gn thr).average_result) ∧
    (∀ (base : Option Nat) (g : Graph) (b n : Nat) (gn : String) (thr : ℚ),
      1 ≤ n →
      (attack_multiple_runs base g b n gn thr).average_result.lcc_values =
        (List.range
          ((((runResultsAux g b gn thr 0 (seedsUsed base n)).map
            (fun r => r.lcc_values)).map List.length).foldr max 0)).map
          (fun i =>
            (((runResultsAux g b gn thr 0 (seedsUsed base n)).map
              (fun r => r.lcc_values)).map (fun c => padAt c i)).sum /
              ((n : Nat) : ℚ))) := by
  have hcons : ∀ (base : Option Nat) (g : Graph) (b m : Nat) (gn : String)
      (thr : ℚ),
      runResultsAux g b gn thr 0 (seedsUsed base (m + 1)) =
        random_attack (nextSeed base 0) g b (gn ++ "_run" ++ toString 0)
            thr ::
          runResultsAux g b gn thr 1
            (seedsFrom (some (nextSeed base 0)) 1 m) := by
    intro base g b m gn thr
    rfl
  refine ⟨?_, ?_, ?_⟩
  · intro base g b n gn thr k hk1 hkn
    match n, k, hkn with
    | m + 1, j + 1, hkn =>
      show (aggregate_runs (runResultsAux g b gn thr 0
          (seedsUsed base (m + 1))) (m + 1) gn).all_results.getD (j + 1)
          emptyAttackResult = _
      rw [hcons, aggregate_runs_all_results, List.getD_cons_succ,
        runResultsAux_getD g b gn thr _ 1 j
          (by rw [seedsFrom_length]; omega)]
      have hseeds : seedsUsed base (m + 1) =
          nextSeed base 0 :: seedsFrom (some (nextSeed base 0)) 1 m := rfl
      rw [hseeds, List.getD_cons_succ]
      have : (1 : Nat) + j = j + 1 := by omega
      rw [this]
  · intro base g b n gn thr hn
    match n, hn with
    | m + 1, _ =>
      show (aggregate_runs (runResultsAux g b gn thr 0
          (seedsUsed base (m + 1))) (m + 1) gn).all_results.getD 0
          emptyAttackResult = _
      rw [hcons, aggregate_runs_all_results]
      rfl
  · intro base g b n gn thr hn
    match n, hn with
    | m + 1, _ =>
      show (aggregate_runs (runResultsAux g b gn thr 0
          (seedsUsed base (m + 1))) (m + 1) gn).average_result.lcc_values = _
      rw [hcons, aggregate_runs_avg_lcc]
      have hlen : (random_attack (nextSeed base 0) g b
          (gn ++ "_run" ++ toString 0) thr ::
            runResultsAux g b gn thr 1
              (seedsFrom (some (nextSeed base 0)) 1 m)).length = m + 1 := by
        simp [runResultsAux_length, seedsFrom_length]
      rw [hlen]

/-- C9 counterexample: base seed 42, three runs, budget 1 on the 4-path.
The averaging mutates the template object `all_results[0]`: the returned
`all_results[0]` carries the averaged curve [1, 2/3], while its own run
(seed 42, which removes node 0) computed [1, 3/4]. -/
theorem C9_counterexample :
    ((attack_multiple_runs (some 42) pathGraph4 1 3 ("g")
        (1/5)).all_results.getD 0 emptyAttackResult).lcc_values =
      [1, 2/3] ∧
    (random_attack 42 pathGraph4 1 ("g" ++ "_run" ++ toString 0)
        (1/5)).lcc_values = [1, 3/4] ∧
    ¬ (([1, 2/3] : List ℚ) = [1, 3/4]) := by
  refine ⟨?_, ?_, by with_unfolding_all decide⟩
  · with_unfolding_all decide
  · with_unfolding_all decide

/-- C9 witness: the aggregation theorem applied at base seed 42, three runs,
budget 1 on the 4-path, index 1. -/
theorem C9_witness :
    (attack_multiple_runs (some 42) pathGraph4 1 3 ("g")
        (1/5)).all_results.getD 1 emptyAttackResult =
      random_attack ((seedsUsed (some 42) 3).getD 1 0) pathGraph4 1
        ("g" ++ "_run" ++ toString 1) (1/5) ∧
    (attack_multiple_runs (some 42) pathGraph4 1 3 ("g")
        (1/5)).all_results.getD 0 emptyAttackResult =
      (attack_multiple_runs (some 42) pathGraph4 1 3 ("g")
        (1/5)).average_result ∧
    (attack_multiple_runs (some 42) pathGraph4 1 3 ("g")
        (1/5)).average_result.lcc_values =
      (List.range
        ((((runResultsAux pathGraph4 1 ("g") (1/5) 0
          (seedsUsed (some 42) 3)).map (fun r => r.lcc_values)).map
            List.length).foldr max 0)).map
        (fun i =>
          (((runResultsAux pathGraph4 1 ("g") (1/5) 0
            (seedsUsed (some 42) 3)).map (fun r => r.lcc_values)).map
              (fun c => padAt c i)).sum / ((3 : Nat) : ℚ)) :=
  ⟨C9_multirun_aggregation.1 (some 42) pathGraph4 1 3 ("g") (1/5) 1
      (by omega) (by omega),
   C9_multirun_aggregation.2.1 (some 42) pathGraph4 1 3 ("g") (1/5) (by omega),
   C9_multirun_aggregation.2.2 (some 42) pathGraph4 1 3 ("g") (1/5) (by omega)⟩

/-- C5 (amended): `evaluate_construct(G, G, [])` always yields
`r_tar == r_original_tar` (the highest-degree stress test is deterministic
and runs on the same graph with the same budget both times). The random
halves `r_ran` and `r_original_ran` are not equal in general: the same
`RandomAttack` instance serves both batches and `set_seed` has advanced its
stored seed, so the original-graph batch runs with different seeds. -/
theorem C5_construct_idempotent_tar (g : Graph) (added : List (Nat × Nat))
    (ab : Option Nat) (mn gn : String) :
    (evaluate_construct g g added ab mn gn).r_tar =
      (evaluate_construct g g added ab mn gn).r_original_tar := rfl

/-- C5 counterexample: on the 4-path (defaults: budget `int(0.3*4) = 1`,
ten runs, seed 42), the reconstructed-graph random stress test gives
`r_ran = 13/64` (seeds 42,43,45,...,87) while the original-graph stress test
continues with seeds 87,88,90,...,132 and gives `r_original_ran = 1/5`, so
`r_ran == r_original_ran` fails for `evaluate_construct(G, G, [])`. -/
theorem C5_counterexample :
    (evaluate_construct pathGraph4 pathGraph4 [] none).r_ran = 13/64 ∧
    (evaluate_construct pathGraph4 pathGraph4 [] none).r_original_ran =
      1/5 ∧
    ¬ ((13 : ℚ)/64 = 1/5) := by
  refine ⟨?_, ?_, by norm_num⟩
  · with_unfolding_all decide
  · with_unfolding_all decide

/-- C1: the end-to-end scenario. On the path graph 0-1-2-3-4 with budget 2,
the adaptive highest-degree attack removes node 1 (the first among the
degree-2 nodes in insertion order) and then node 3, producing removal
fractions [0, 0.2, 0.4], lcc values [1, 0.6, 0.2] and resilience integral
0.24. -/
theorem C1_hda_path_scenario :
    (hda_attack pathGraph5 2).attack_sequence = [1, 3] ∧
    (hda_attack pathGraph5 2).removal_fractions = [0, 1/5, 2/5] ∧
    (hda_attack pathGraph5 2).lcc_values = [1, 3/5, 1/5] ∧
    (hda_attack pathGraph5 2).r_res = 6/25 := by
  refine ⟨?_, ?_, ?_, ?_⟩ <;> with_unfolding_all decide

/-- C2 counterexample: the trapezoidal integral of the lcc curve
[1.0, 0.8, 0.5, 0.3, 0.1, 0.0] over the fractions [0, 0.2, 0.4, 0.6, 0.8,
1.0] is 0.44 in both implementations of the R_res computation, not 0.37 as
the claim states. -/
theorem C2_counterexample :
    ¬ (compute_r_res_unified [0, 1/5, 2/5, 3/5, 4/5, 1]
        [1, 4/5, 1/2, 3/10, 1/10, 0] = 37/100) ∧
    ¬ (compute_r_res_metrics [1, 4/5, 1/2, 3/10, 1/10, 0] = 37/100) := by
  refine ⟨?_, ?_⟩ <;> with_unfolding_all decide

/-- C2 (amended): the resilience integral of the lcc curve
[1.0, 0.8, 0.5, 0.3, 0.1, 0.0] over the fractions [0, 0.2, 0.4, 0.6, 0.8,
1.0] equals 0.44 (= 11/25), under both `UnifiedEvaluator._compute_r_res`
and `ResilienceMetrics.compute_r_res` (whose uniform spacing
`dx = 1/(6-1) = 0.2` matches these fractions). -/
theorem C2_resilience_integral :
    compute_r_res_unified [0, 1/5, 2/5, 3/5, 4/5, 1]
        [1, 4/5, 1/2, 3/10, 1/10, 0] = 11/25 ∧
    compute_r_res_metrics [1, 4/5, 1/2, 3/10, 1/10, 0] = 11/25 := by
  refine ⟨?_, ?_⟩ <;> with_unfolding_all decide
